import Mathlib

/-!
Shallow embedding of `schedule_app_changes/models/panning_slot.py`
(method `create_timesheet_from_effective_hours` on `planning.slot` and its
wrappers), together with theorems about the hour-distribution algorithm.

Calendar dates are embedded as `Int` day ordinals (proleptic Gregorian
rata die), so `timedelta(days=1)` becomes `+ 1`.  Hour quantities are
embedded as `ℚ`.
-/

namespace Lemon

/-- An emitted allocation: one entry of `timesheet_data` in the source,
a `{date, hours}` pair. -/
structure Allocation where
  date : Int
  hours : ℚ
deriving Repr, DecidableEq

/-- `max_hours_per_day = 8` in the source. -/
def daily_cap : ℚ := 8

/-- The primary loop of the distributor:
`for day_offset in range(total_days): ...` in the source.  The first `Nat`
argument is the number of loop iterations still to run, the second is the
current `day_offset`.  Returns the emitted allocations (in order) together
with the final `remaining_hours`. -/
def primaryLoop (ex : Int → Bool) (start_date : Int) :
    Nat → Nat → ℚ → List Allocation × ℚ
  | 0, _, remaining => ([], remaining)
  | n + 1, off, remaining =>
    if remaining ≤ 0 then ([], remaining)
    else
      let current_date : Int := start_date + off
      let hours_for_day : ℚ := min remaining daily_cap
      let p := primaryLoop ex start_date n (off + 1) (remaining - hours_for_day)
      if ex current_date then p
      else (⟨current_date, hours_for_day⟩ :: p.1, p.2)

/-- Termination measure of the spillover `while remaining_hours > 0` loop:
the number of iterations it still runs, `⌈remaining / 8⌉`. -/
def spillMeasure (r : ℚ) : Nat := (Int.ceil (r / daily_cap)).toNat

theorem spillMeasure_decreases (r : ℚ) (h : 0 < r) :
    spillMeasure (r - min r daily_cap) < spillMeasure r := by
  unfold spillMeasure daily_cap
  rcases le_or_lt r 8 with hle | hgt
  · have hmin : min r (8 : ℚ) = r := min_eq_left hle
    rw [hmin, sub_self]
    have h1 : Int.ceil ((0 : ℚ) / 8) = 0 := by norm_num
    have h2 : (1 : ℤ) ≤ Int.ceil (r / 8) := by
      rw [Int.le_ceil_iff]
      have : (0 : ℚ) < r / 8 := by positivity
      simpa using this
    omega
  · have hmin : min r (8 : ℚ) = 8 := min_eq_right (le_of_lt hgt)
    rw [hmin]
    have heq : (r - 8) / 8 = r / 8 - (1 : ℤ) := by push_cast; ring
    have h1 : Int.ceil ((r - 8) / 8) = Int.ceil (r / 8) - 1 := by
      rw [heq, Int.ceil_sub_int]
    have h2 : (1 : ℤ) < Int.ceil (r / 8) := by
      rw [Int.lt_ceil]
      push_cast
      rw [lt_div_iff₀ (by norm_num : (0 : ℚ) < 8)]
      linarith
    omega

theorem one_le_spillMeasure (r : ℚ) (h : 0 < r) : 1 ≤ spillMeasure r := by
  unfold spillMeasure daily_cap
  have h2 : (1 : ℤ) ≤ Int.ceil (r / 8) := by
    rw [Int.le_ceil_iff]
    have : (0 : ℚ) < r / 8 := by positivity
    simpa using this
  omega

/-- One bounded unrolling of the spillover loop body, structurally
recursive on a fuel counter (the loop itself runs `spillMeasure` many
iterations, see `spillGo_eq_of_le`). -/
def spillGo (ex : Int → Bool) : Nat → ℚ → Int → List Allocation
  | 0, _, _ => []
  | fuel + 1, remaining, current_date =>
    if 0 < remaining then
      let d := current_date + 1
      let hours_for_day : ℚ := min remaining daily_cap
      let rest := spillGo ex fuel (remaining - hours_for_day) d
      if ex d then rest else ⟨d, hours_for_day⟩ :: rest
    else []

theorem spillGo_of_nonpos (ex : Int → Bool) (fuel : Nat) (r : ℚ) (d : Int)
    (h : ¬ 0 < r) : spillGo ex fuel r d = [] := by
  cases fuel with
  | zero => rfl
  | succ fuel => simp [spillGo, h]

/-- The value of `spillGo` does not depend on the fuel, as long as the fuel
covers the `spillMeasure` many iterations the loop performs. -/
theorem spillGo_eq_of_le (ex : Int → Bool) :
    ∀ (fuel fuel' : Nat) (r : ℚ) (d : Int), spillMeasure r ≤ fuel →
      spillMeasure r ≤ fuel' → spillGo ex fuel r d = spillGo ex fuel' r d := by
  intro fuel
  induction fuel with
  | zero =>
    intro fuel' r d h h'
    have hr : ¬ 0 < r := fun hpos => by have := one_le_spillMeasure r hpos; omega
    rw [spillGo_of_nonpos ex _ r d hr, spillGo_of_nonpos ex _ r d hr]
  | succ fuel ih =>
    intro fuel' r d h h'
    by_cases hr : 0 < r
    · have h1 := one_le_spillMeasure r hr
      obtain ⟨f', rfl⟩ : ∃ f', fuel' = f' + 1 := ⟨fuel' - 1, by omega⟩
      have hdec := spillMeasure_decreases r hr
      simp only [spillGo, if_pos hr]
      rw [ih f' (r - min r daily_cap) (d + 1) (by omega) (by omega)]
    · rw [spillGo_of_nonpos ex _ r d hr, spillGo_of_nonpos ex _ r d hr]

/-- The spillover loop always has enough fuel with `r.num.toNat + 1`. -/
theorem spillMeasure_le_fuel (r : ℚ) : spillMeasure r ≤ r.num.toNat + 1 := by
  by_cases hr : 0 < r
  · have hnum : 0 < r.num := Rat.num_pos.2 hr
    have hle1 : r / daily_cap ≤ r := by
      unfold daily_cap
      exact div_le_self (le_of_lt hr) (by norm_num)
    have hle2 : r ≤ (r.num : ℚ) := by
      conv_lhs => rw [← Rat.num_div_den r]
      apply div_le_self
      · exact_mod_cast le_of_lt hnum
      · have := r.den_pos
        exact_mod_cast Nat.one_le_iff_ne_zero.2 (Nat.pos_iff_ne_zero.1 this)
    have hceil : Int.ceil (r / daily_cap) ≤ r.num := by
      calc Int.ceil (r / daily_cap) ≤ Int.ceil (r.num : ℚ) :=
            Int.ceil_le_ceil (le_trans hle1 hle2)
        _ = r.num := Int.ceil_intCast r.num
    unfold spillMeasure
    omega
  · have : spillMeasure r = 0 := by
      have h2 : Int.ceil (r / daily_cap) ≤ 0 := by
        have h0 : r ≤ 0 := le_of_not_lt hr
        have hc : (0 : ℚ) < daily_cap := by norm_num [daily_cap]
        have hq : r / daily_cap ≤ 0 := div_nonpos_of_nonpos_of_nonneg h0 (le_of_lt hc)
        have := Int.ceil_le.2 (by simpa using hq : r / daily_cap ≤ ((0 : ℤ) : ℚ))
        simpa using this
      unfold spillMeasure
      omega
    omega

/-- The spillover loop of the distributor:
`current_date = end_date; while remaining_hours > 0: current_date += 1; ...`
in the source.  `current_date` here is the value *before* the increment at
the top of the loop body; the fuel always suffices
(`spillMeasure_le_fuel`), so this is the full while loop. -/
def spillLoop (ex : Int → Bool) (remaining : ℚ) (current_date : Int) :
    List Allocation :=
  spillGo ex (remaining.num.toNat + 1) remaining current_date

/-- Number of iterations the spillover loop performs on a given
`remaining_hours` value. -/
def spillSteps (remaining : ℚ) : Nat :=
  if h : 0 < remaining then spillSteps (remaining - min remaining daily_cap) + 1
  else 0
termination_by spillMeasure remaining
decreasing_by exact spillMeasure_decreases remaining h

/-- The Hour Distributor: both loops of the source method for one slot,
stripped of persistence.  `total_days = (end_date - start_date).days + 1`;
the spillover scan starts at `end_date`. -/
def distribute (total_hours : ℚ) (start_date end_date : Int)
    (ex : Int → Bool) : List Allocation :=
  let total_days : Nat := (end_date - start_date + 1).toNat
  let p := primaryLoop ex start_date total_days 0 total_hours
  p.1 ++ spillLoop ex p.2 end_date

/-- Sum of the hours of a list of allocations. -/
def sumHours (l : List Allocation) : ℚ := (l.map (fun a => a.hours)).sum

@[simp] theorem sumHours_nil : sumHours [] = 0 := rfl

@[simp] theorem sumHours_cons (a : Allocation) (l : List Allocation) :
    sumHours (a :: l) = a.hours + sumHours l := by
  simp [sumHours]

@[simp] theorem sumHours_append (l₁ l₂ : List Allocation) :
    sumHours (l₁ ++ l₂) = sumHours l₁ + sumHours l₂ := by
  simp [sumHours]

theorem spillLoop_nonpos (ex : Int → Bool) (r : ℚ) (d : Int) (h : ¬ 0 < r) :
    spillLoop ex r d = [] :=
  spillGo_of_nonpos ex _ r d h

theorem spillLoop_pos (ex : Int → Bool) (r : ℚ) (d : Int) (h : 0 < r) :
    spillLoop ex r d =
      (if ex (d + 1) then spillLoop ex (r - min r daily_cap) (d + 1)
       else ⟨d + 1, min r daily_cap⟩ :: spillLoop ex (r - min r daily_cap) (d + 1)) := by
  unfold spillLoop
  conv_lhs => rw [spillGo]
  simp only [if_pos h]
  have hdec := spillMeasure_decreases r h
  have hfuel := spillMeasure_le_fuel r
  have hfuel' := spillMeasure_le_fuel (r - min r daily_cap)
  rw [spillGo_eq_of_le ex r.num.toNat ((r - min r daily_cap).num.toNat + 1)
    (r - min r daily_cap) (d + 1) (by omega) (by omega)]

theorem spillSteps_nonpos (r : ℚ) (h : ¬ 0 < r) : spillSteps r = 0 := by
  rw [spillSteps]
  simp [h]

theorem spillSteps_pos (r : ℚ) (h : 0 < r) :
    spillSteps r = spillSteps (r - min r daily_cap) + 1 := by
  rw [spillSteps]
  simp [h]

/-! ### Invariants of the primary loop -/

/-- Every allocation emitted by the primary loop has a date for which the
existence check was false, a date within the iterated window, and hours in
`(0, daily_cap]`. -/
theorem primaryLoop_mem (ex : Int → Bool) (sd : Int) :
    ∀ (n off : Nat) (r : ℚ) (a : Allocation),
      a ∈ (primaryLoop ex sd n off r).1 →
      ex a.date = false ∧ (sd + off ≤ a.date ∧ a.date < sd + off + n) ∧
        0 < a.hours ∧ a.hours ≤ daily_cap := by
  intro n
  induction n with
  | zero => intro off r a ha; simp [primaryLoop] at ha
  | succ n ih =>
    intro off r a ha
    rw [primaryLoop] at ha
    by_cases hr : r ≤ 0
    · simp [hr] at ha
    · simp only [if_neg hr] at ha
      by_cases hex : ex (sd + off)
      · simp only [if_pos hex] at ha
        obtain ⟨h1, h2, h3⟩ := ih (off + 1) _ a ha
        refine ⟨h1, ?_, h3⟩
        push_cast at h2 ⊢
        omega
      · simp only [if_neg hex, List.mem_cons] at ha
        rcases ha with rfl | ha
        · refine ⟨by simpa using hex, ?_, ?_, min_le_right _ _⟩
          · constructor
            · simp
            · push_cast; omega
          · have hr' : 0 < r := lt_of_not_ge hr
            have : (0 : ℚ) < daily_cap := by norm_num [daily_cap]
            exact lt_min hr' this
        · obtain ⟨h1, h2, h3⟩ := ih (off + 1) _ a ha
          refine ⟨h1, ?_, h3⟩
          push_cast at h2 ⊢
          omega

/-- The dates emitted by the primary loop are strictly increasing. -/
theorem primaryLoop_sorted (ex : Int → Bool) (sd : Int) :
    ∀ (n off : Nat) (r : ℚ),
      ((primaryLoop ex sd n off r).1.map (fun a => a.date)).Sorted (· < ·) := by
  intro n
  induction n with
  | zero => intro off r; simp [primaryLoop]
  | succ n ih =>
    intro off r
    rw [primaryLoop]
    by_cases hr : r ≤ 0
    · simp [hr]
    · simp only [if_neg hr]
      by_cases hex : ex (sd + off)
      · simpa [hex] using ih (off + 1) (r - min r daily_cap)
      · simp only [if_neg hex, List.map_cons, List.sorted_cons]
        refine ⟨?_, ih (off + 1) (r - min r daily_cap)⟩
        intro b hb
        simp only [List.mem_map] at hb
        obtain ⟨a, ha, rfl⟩ := hb
        have := (primaryLoop_mem ex sd n (off + 1) _ a ha).2.1.1
        push_cast at this ⊢
        omega

/-- The final `remaining_hours` value of the primary loop does not depend
on the existence check: duplicate dates still consume their hour share. -/
theorem primaryLoop_snd_indep (ex ex' : Int → Bool) (sd : Int) :
    ∀ (n off : Nat) (r : ℚ),
      (primaryLoop ex sd n off r).2 = (primaryLoop ex' sd n off r).2 := by
  intro n
  induction n with
  | zero => intro off r; rfl
  | succ n ih =>
    intro off r
    rw [primaryLoop, primaryLoop]
    by_cases hr : r ≤ 0
    · simp [hr]
    · simp only [if_neg hr]
      have h2 := ih (off + 1) (r - min r daily_cap)
      by_cases hex : ex (sd + off) <;> by_cases hex' : ex' (sd + off) <;>
        simp [hex, hex', h2]

/-- The final `remaining_hours` of the primary loop is nonnegative when the
initial value is. -/
theorem primaryLoop_snd_nonneg (ex : Int → Bool) (sd : Int) :
    ∀ (n off : Nat) (r : ℚ), 0 ≤ r → 0 ≤ (primaryLoop ex sd n off r).2 := by
  intro n
  induction n with
  | zero => intro off r h; simpa [primaryLoop] using h
  | succ n ih =>
    intro off r h
    rw [primaryLoop]
    by_cases hr : r ≤ 0
    · simpa [hr] using h
    · simp only [if_neg hr]
      have hrec : 0 ≤ r - min r daily_cap := by
        have := min_le_left r daily_cap
        linarith
      by_cases hex : ex (sd + off) <;> simpa [hex] using ih (off + 1) _ hrec

/-- With an all-false existence check, the primary loop emits exactly the
hours it consumed: initial `remaining` minus final `remaining`. -/
theorem primaryLoop_sum_false (sd : Int) :
    ∀ (n off : Nat) (r : ℚ),
      sumHours (primaryLoop (fun _ => false) sd n off r).1 =
        r - (primaryLoop (fun _ => false) sd n off r).2 := by
  intro n
  induction n with
  | zero => intro off r; simp [primaryLoop]
  | succ n ih =>
    intro off r
    rw [primaryLoop]
    by_cases hr : r ≤ 0
    · simp [hr]
    · simp only [if_neg hr]
      have := ih (off + 1) (r - min r daily_cap)
      simp only [Bool.false_eq_true, if_false, sumHours_cons]
      rw [this]
      ring

/-! ### Invariants of the spillover loop -/

theorem spillLoop_mem_aux :
    ∀ (N : Nat) (ex : Int → Bool) (r : ℚ) (d : Int), spillMeasure r ≤ N →
      ∀ a ∈ spillLoop ex r d,
        ex a.date = false ∧ d < a.date ∧ 0 < a.hours ∧ a.hours ≤ daily_cap := by
  intro N
  induction N with
  | zero =>
    intro ex r d hN a ha
    have hr : ¬ 0 < r := fun h => by have := one_le_spillMeasure r h; omega
    rw [spillLoop_nonpos ex r d hr] at ha
    simp at ha
  | succ N ih =>
    intro ex r d hN a ha
    by_cases hr : 0 < r
    · have hN' : spillMeasure (r - min r daily_cap) ≤ N := by
        have := spillMeasure_decreases r hr
        omega
      rw [spillLoop_pos ex r d hr] at ha
      by_cases hex : ex (d + 1)
      · simp only [if_pos hex] at ha
        obtain ⟨h1, h2, h3⟩ := ih ex _ (d + 1) hN' a ha
        exact ⟨h1, by omega, h3⟩
      · simp only [if_neg hex, List.mem_cons] at ha
        rcases ha with rfl | ha
        · refine ⟨by simpa using hex, by simp, ?_, min_le_right _ _⟩
          have : (0 : ℚ) < daily_cap := by norm_num [daily_cap]
          exact lt_min hr this
        · obtain ⟨h1, h2, h3⟩ := ih ex _ (d + 1) hN' a ha
          exact ⟨h1, by omega, h3⟩
    · rw [spillLoop_nonpos ex r d hr] at ha
      simp at ha

/-- Every allocation emitted by the spillover loop has a date for which the
existence check was false, a date strictly after the loop's starting date,
and hours in `(0, daily_cap]`. -/
theorem spillLoop_mem (ex : Int → Bool) (r : ℚ) (d : Int) (a : Allocation)
    (ha : a ∈ spillLoop ex r d) :
    ex a.date = false ∧ d < a.date ∧ 0 < a.hours ∧ a.hours ≤ daily_cap :=
  spillLoop_mem_aux (spillMeasure r) ex r d le_rfl a ha

theorem spillLoop_sorted_aux :
    ∀ (N : Nat) (ex : Int → Bool) (r : ℚ) (d : Int), spillMeasure r ≤ N →
      ((spillLoop ex r d).map (fun a => a.date)).Sorted (· < ·) := by
  intro N
  induction N with
  | zero =>
    intro ex r d hN
    have hr : ¬ 0 < r := fun h => by have := one_le_spillMeasure r h; omega
    simp [spillLoop_nonpos ex r d hr]
  | succ N ih =>
    intro ex r d hN
    by_cases hr : 0 < r
    · have hN' : spillMeasure (r - min r daily_cap) ≤ N := by
        have := spillMeasure_decreases r hr
        omega
      rw [spillLoop_pos ex r d hr]
      by_cases hex : ex (d + 1)
      · simpa [hex] using ih ex _ (d + 1) hN'
      · simp only [if_neg hex, List.map_cons, List.sorted_cons]
        refine ⟨?_, ih ex _ (d + 1) hN'⟩
        intro b hb
        simp only [List.mem_map] at hb
        obtain ⟨x, hx, rfl⟩ := hb
        exact (spillLoop_mem ex _ (d + 1) x hx).2.1
    · simp [spillLoop_nonpos ex r d hr]

/-- The dates emitted by the spillover loop are strictly increasing. -/
theorem spillLoop_sorted (ex : Int → Bool) (r : ℚ) (d : Int) :
    ((spillLoop ex r d).map (fun a => a.date)).Sorted (· < ·) :=
  spillLoop_sorted_aux (spillMeasure r) ex r d le_rfl

theorem spillLoop_sum_false_aux :
    ∀ (N : Nat) (r : ℚ) (d : Int), spillMeasure r ≤ N →
      sumHours (spillLoop (fun _ => false) r d) = max r 0 := by
  intro N
  induction N with
  | zero =>
    intro r d hN
    have hr : ¬ 0 < r := fun h => by have := one_le_spillMeasure r h; omega
    rw [spillLoop_nonpos _ r d hr, max_eq_right (le_of_not_lt hr)]
    rfl
  | succ N ih =>
    intro r d hN
    by_cases hr : 0 < r
    · have hN' : spillMeasure (r - min r daily_cap) ≤ N := by
        have := spillMeasure_decreases r hr
        omega
      rw [spillLoop_pos _ r d hr]
      simp only [Bool.false_eq_true, if_false, sumHours_cons]
      rw [ih _ (d + 1) hN']
      have h1 : min r daily_cap ≤ r := min_le_left _ _
      rw [max_eq_left (by linarith), max_eq_left (le_of_lt hr)]
      ring
    · rw [spillLoop_nonpos _ r d hr, max_eq_right (le_of_not_lt hr)]
      rfl

/-- With an all-false existence check, the spillover loop emits exactly the
remaining hours (or nothing when they are not positive). -/
theorem spillLoop_sum_false (r : ℚ) (d : Int) :
    sumHours (spillLoop (fun _ => false) r d) = max r 0 :=
  spillLoop_sum_false_aux (spillMeasure r) r d le_rfl

theorem spillLoop_dates_false_aux :
    ∀ (N : Nat) (r : ℚ) (d : Int), spillMeasure r ≤ N →
      ∃ k : Nat, (spillLoop (fun _ => false) r d).map (fun a => a.date) =
        (List.range k).map (fun i : Nat => d + 1 + (i : Int)) := by
  intro N
  induction N with
  | zero =>
    intro r d hN
    have hr : ¬ 0 < r := fun h => by have := one_le_spillMeasure r h; omega
    exact ⟨0, by simp [spillLoop_nonpos _ r d hr]⟩
  | succ N ih =>
    intro r d hN
    by_cases hr : 0 < r
    · have hN' : spillMeasure (r - min r daily_cap) ≤ N := by
        have := spillMeasure_decreases r hr
        omega
      obtain ⟨k, hk⟩ := ih (r - min r daily_cap) (d + 1) hN'
      refine ⟨k + 1, ?_⟩
      rw [spillLoop_pos _ r d hr]
      simp only [Bool.false_eq_true, if_false, List.map_cons]
      rw [hk, List.range_succ_eq_map, List.map_cons, List.map_map]
      refine congrArg₂ _ (by simp) ?_
      refine List.map_congr_left ?_
      intro i _
      simp only [Function.comp_apply]
      push_cast
      ring
    · exact ⟨0, by simp [spillLoop_nonpos _ r d hr]⟩

/-- With an all-false existence check, the spillover loop emits allocations
on consecutive dates starting exactly at `d + 1`. -/
theorem spillLoop_dates_false (r : ℚ) (d : Int) :
    ∃ k : Nat, (spillLoop (fun _ => false) r d).map (fun a => a.date) =
      (List.range k).map (fun i : Nat => d + 1 + (i : Int)) :=
  spillLoop_dates_false_aux (spillMeasure r) r d le_rfl

theorem spillLoop_length_aux :
    ∀ (N : Nat) (ex : Int → Bool) (r : ℚ) (d : Int), spillMeasure r ≤ N →
      (spillLoop ex r d).length ≤ spillSteps r := by
  intro N
  induction N with
  | zero =>
    intro ex r d hN
    have hr : ¬ 0 < r := fun h => by have := one_le_spillMeasure r h; omega
    simp [spillLoop_nonpos ex r d hr]
  | succ N ih =>
    intro ex r d hN
    by_cases hr : 0 < r
    · have hN' : spillMeasure (r - min r daily_cap) ≤ N := by
        have := spillMeasure_decreases r hr
        omega
      rw [spillLoop_pos ex r d hr, spillSteps_pos r hr]
      have := ih ex (r - min r daily_cap) (d + 1) hN'
      by_cases hex : ex (d + 1)
      · simp only [if_pos hex]
        omega
      · simp only [if_neg hex, List.length_cons]
        omega
    · simp [spillLoop_nonpos ex r d hr]

/-- The spillover loop emits at most as many allocations as it performs
iterations. -/
theorem spillLoop_length (ex : Int → Bool) (r : ℚ) (d : Int) :
    (spillLoop ex r d).length ≤ spillSteps r :=
  spillLoop_length_aux (spillMeasure r) ex r d le_rfl

theorem spillSteps_eq_aux :
    ∀ (N : Nat) (r : ℚ), spillMeasure r ≤ N → spillSteps r = spillMeasure r := by
  intro N
  induction N with
  | zero =>
    intro r hN
    have hr : ¬ 0 < r := fun h => by have := one_le_spillMeasure r h; omega
    rw [spillSteps_nonpos r hr]
    omega
  | succ N ih =>
    intro r hN
    by_cases hr : 0 < r
    · have hN' : spillMeasure (r - min r daily_cap) ≤ N := by
        have := spillMeasure_decreases r hr
        omega
      rw [spillSteps_pos r hr, ih _ hN']
      unfold spillMeasure daily_cap
      rcases le_or_lt r 8 with hle | hgt
      · have hmin : min r (8 : ℚ) = r := min_eq_left hle
        rw [hmin, sub_self]
        have h1 : Int.ceil ((0 : ℚ) / 8) = 0 := by norm_num
        have h2 : Int.ceil (r / 8) = 1 := by
          rw [Int.ceil_eq_iff]
          constructor
          · have : (0 : ℚ) < r / 8 := by positivity
            push_cast
            linarith
          · push_cast
            rw [div_le_one (by norm_num : (0 : ℚ) < 8)]
            exact hle
        rw [h1, h2]
        rfl
      · have hmin : min r (8 : ℚ) = 8 := min_eq_right (le_of_lt hgt)
        rw [hmin]
        have heq : (r - 8) / 8 = r / 8 - (1 : ℤ) := by push_cast; ring
        have h1 : Int.ceil ((r - 8) / 8) = Int.ceil (r / 8) - 1 := by
          rw [heq, Int.ceil_sub_int]
        have h2 : (1 : ℤ) < Int.ceil (r / 8) := by
          rw [Int.lt_ceil]
          push_cast
          rw [lt_div_iff₀ (by norm_num : (0 : ℚ) < 8)]
          linarith
        rw [h1]
        omega
    · rw [spillSteps_nonpos r hr]
      have : Int.ceil (r / daily_cap) ≤ 0 := by
        rw [show ((0 : ℤ) : ℤ) = (0 : ℤ) from rfl, Int.ceil_le]
        have h0 : r ≤ 0 := le_of_not_lt hr
        have hc : (0 : ℚ) < daily_cap := by norm_num [daily_cap]
        have := div_nonpos_of_nonpos_of_nonneg h0 (le_of_lt hc)
        simpa using this
      unfold spillMeasure
      omega

/-- The number of iterations of the spillover loop is exactly
`⌈remaining / daily_cap⌉` (clamped at zero). -/
theorem spillSteps_eq (r : ℚ) : spillSteps r = (Int.ceil (r / daily_cap)).toNat :=
  spillSteps_eq_aux (spillMeasure r) r le_rfl

/-! ### Calendar dates and `datetime.strptime(_, '%Y-%m-%d')` -/

/-- A calendar date as produced by `datetime.strptime(s, '%Y-%m-%d').date()`. -/
structure Date where
  year : Nat
  month : Nat
  day : Nat
deriving Repr, DecidableEq

/-- Gregorian leap-year test. -/
def isLeap (y : Nat) : Bool := (y % 4 = 0 ∧ y % 100 ≠ 0) ∨ y % 400 = 0

/-- Length of a month. -/
def daysInMonth (y m : Nat) : Nat :=
  if m = 2 then (if isLeap y then 29 else 28)
  else if m = 4 ∨ m = 6 ∨ m = 9 ∨ m = 11 then 30
  else 31

/-- Days in year `y` before the first of month `m`. -/
def daysBeforeMonth (y m : Nat) : Nat :=
  ((List.range (m - 1)).map (fun i => daysInMonth y (i + 1))).sum

/-- Proleptic-Gregorian day ordinal of a date (`date.toordinal()` in Python):
day 1 is 0001-01-01.  `timedelta(days=k)` becomes `+ k` on ordinals. -/
def toOrd (d : Date) : Int :=
  let y := d.year - 1
  ((365 * y + y / 4 + y / 400 - y / 100 + daysBeforeMonth d.year d.month + d.day : Nat) : Int)

/-- Comparison of `datetime.date` objects: lexicographic on
(year, month, day). -/
def dateLt (a b : Date) : Bool :=
  a.year < b.year ∨ (a.year = b.year ∧
    (a.month < b.month ∨ (a.month = b.month ∧ a.day < b.day)))

/-- Split a character sequence at every `'-'`. -/
def splitDash : List Char → List (List Char)
  | [] => [[]]
  | c :: rest =>
    match splitDash rest with
    | [] => [[]]
    | g :: gs => if c = '-' then [] :: g :: gs else (c :: g) :: gs

/-- Decimal value of a nonempty all-digit character sequence. -/
def digitsToNat? (l : List Char) : Option Nat :=
  if l ≠ [] ∧ l.all (fun c => decide (48 ≤ c.toNat) && decide (c.toNat ≤ 57)) then
    some (l.foldl (fun n c => n * 10 + (c.toNat - 48)) 0)
  else none

/-- `datetime.strptime(s, '%Y-%m-%d').date()`: `none` when the source would
raise `ValueError`.  `%Y` matches exactly four digits, `%m` and `%d` one or
two; the day must exist in the month and the year lie in
`[MINYEAR, MAXYEAR] = [1, 9999]`. -/
def parseDate (s : String) : Option Date :=
  match splitDash s.toList with
  | [ys, ms, ds] =>
    match digitsToNat? ys, digitsToNat? ms, digitsToNat? ds with
    | some y, some m, some d =>
      if ys.length = 4 ∧ ms.length ≤ 2 ∧ ds.length ≤ 2 ∧
          1 ≤ y ∧ y ≤ 9999 ∧ 1 ≤ m ∧ m ≤ 12 ∧ 1 ≤ d ∧ d ≤ daysInMonth y m
      then some ⟨y, m, d⟩ else none
    | _, _, _ => none
  | _ => none

/-! ### The record store and the full method -/

/-- The fields of a `planning.slot` record read by the method.
`allow_timesheets` stands for `project_id.allow_timesheets`. -/
structure Slot where
  id : Nat
  name : String
  employee_id : Nat
  project_id : Nat
  resource_id : Nat
  allow_timesheets : Bool
  effective_hours : ℚ
  allocated_hours : ℚ
deriving Repr, DecidableEq

/-- The fields of an `account.analytic.line` record written or searched by
the method. -/
structure Timesheet where
  id : Nat
  employee_id : Nat
  project_id : Nat
  partner_id : Nat
  date : Int
  unit_amount : ℚ
  slot_id : Nat
deriving Repr, DecidableEq

/-- The external record store: the `planning.slot` table, the
`account.analytic.line` table, and the next fresh record id. -/
structure Store where
  slots : List Slot
  lines : List Timesheet
  next_id : Nat
deriving Repr, DecidableEq

/-- The slot-search domain: `resource_id = partner_id`,
`project_id.allow_timesheets = True`, `effective_hours > 0 or
allocated_hours > 0`, and — only when `specific_slot_id` is truthy
(Python: non-`None` and nonzero) — `id = specific_slot_id`. -/
def slotMatches (partner_id : Nat) (specific_slot_id : Option Nat) (s : Slot) : Bool :=
  decide (s.resource_id = partner_id) && s.allow_timesheets &&
    (decide (0 < s.effective_hours) || decide (0 < s.allocated_hours)) &&
    (match specific_slot_id with
     | some i => if i = 0 then true else decide (s.id = i)
     | none => true)

/-- The duplicate check: `timesheet_env.search([...])` keyed on
(slot, employee, project, date) is nonempty. -/
def existsLine (lines : List Timesheet) (slot : Slot) (d : Int) : Bool :=
  lines.any (fun t => decide (t.slot_id = slot.id) &&
    decide (t.employee_id = slot.employee_id) &&
    decide (t.project_id = slot.project_id) && decide (t.date = d))

/-- `total_hours` chosen for a slot: `effective_hours` when positive, else
`allocated_hours` (both branches of the source `if` compute this same
expression). -/
def slotTotalHours (s : Slot) : ℚ :=
  if 0 < s.effective_hours then s.effective_hours else s.allocated_hours

/-- `timesheet_env.create(...)` for each collected entry, in order,
returning the updated store and the accumulated created ids. -/
def createTimesheets (slot : Slot) :
    List Allocation → Store → List Nat → Store × List Nat
  | [], st, acc => (st, acc)
  | a :: rest, st, acc =>
    let t : Timesheet :=
      ⟨st.next_id, slot.employee_id, slot.project_id, slot.resource_id,
        a.date, a.hours, slot.id⟩
    createTimesheets slot rest ⟨st.slots, st.lines ++ [t], st.next_id + 1⟩
      (acc ++ [t.id])

/-- The body of `for slot in slots:` for one slot: skip when
`total_hours <= 0`, otherwise distribute and persist the collected data. -/
def processSlot (sd ed : Int) (st : Store) (acc : List Nat) (slot : Slot) :
    Store × List Nat :=
  let total_hours := slotTotalHours slot
  if total_hours ≤ 0 then (st, acc)
  else
    let data := distribute total_hours sd ed (existsLine st.lines slot)
    createTimesheets slot data st acc

/-- The whole `for slot in slots:` loop. -/
def runSlots (sd ed : Int) (st : Store) (slots : List Slot) : Store × List Nat :=
  slots.foldl (fun p slot => processSlot sd ed p.1 p.2 slot) (st, [])

/-- The value returned by the method: an error dict or a success dict with
the created timesheet ids. -/
inductive OpResult where
  | error (message : String)
  | success (message : String) (timesheet_ids : List Nat)
deriving Repr, DecidableEq

/-- `create_timesheet_from_effective_hours`, returning the result dict and
the store after any record creation.  `specific_hours` is accepted and, as
in the source, never read. -/
def create_timesheet_from_effective_hours (st : Store) (partner_id : Nat)
    (start_date end_date : String) (specific_slot_id : Option Nat)
    (specific_hours : Option ℚ) : OpResult × Store :=
  match parseDate start_date, parseDate end_date with
  | some sd, some ed =>
    if dateLt ed sd then
      (OpResult.error "Start date cannot be after end date.", st)
    else
      let slots := st.slots.filter (slotMatches partner_id specific_slot_id)
      if slots.isEmpty then
        (OpResult.error
          "No planning slots found with effective or allocated hours for this customer.",
          st)
      else
        let r := runSlots (toOrd sd) (toOrd ed) st slots
        (OpResult.success
          ("Created " ++ toString r.2.length ++ " timesheet entries.") r.2, r.1)
  | _, _ => (OpResult.error "Invalid date format. Use YYYY-MM-DD.", st)

/-- `action_generate_timesheets`: forwards all of its arguments to
`create_timesheet_from_effective_hours` and returns its result. -/
def action_generate_timesheets (st : Store) (partner_id : Nat)
    (start_date end_date : String) (specific_slot_id : Option Nat)
    (specific_hours : Option ℚ) : OpResult × Store :=
  create_timesheet_from_effective_hours st partner_id start_date end_date
    specific_slot_id specific_hours

/-! ### Claims about the Hour Distributor -/

/-- C1: for every `total_hours > 0`, every date range with
`start_date ≤ end_date`, and an existence check that is false for every
date, the hours of all emitted allocations (spillover included) sum to
exactly `total_hours`. -/
theorem C1_hours_sum_exact (th : ℚ) (sd ed : Int)
    (h1 : 0 < th) (h2 : sd ≤ ed) :
    sumHours (distribute th sd ed (fun _ => false)) = th := by
  simp only [distribute, sumHours_append]
  rw [primaryLoop_sum_false, spillLoop_sum_false]
  have hnn := primaryLoop_snd_nonneg (fun _ => false) sd ((ed - sd + 1).toNat) 0 th
    (le_of_lt h1)
  rw [max_eq_left hnn]
  ring

/-- Witness for C1 at `total_hours = 17/2` over the 4-day range `[0, 3]`. -/
theorem C1_hours_sum_exact_witness :
    0 < (17 / 2 : ℚ) ∧ (0 : Int) ≤ 3 ∧
      sumHours (distribute (17 / 2) 0 3 (fun _ => false)) = 17 / 2 :=
  ⟨by norm_num, by norm_num,
    C1_hours_sum_exact (17 / 2) 0 3 (by norm_num) (by norm_num)⟩

/-- C2: a date whose existence check is true never receives an allocation,
yet the remaining total is decremented exactly as if it had (the final
`remaining_hours` does not depend on the existence check at all); in
particular `distribute(8, [D, D], exists ≡ true)` emits nothing while the
remaining hours are consumed down to `0`. -/
theorem C2_duplicates_consume_share :
    (∀ (th : ℚ) (sd ed d : Int) (ex : Int → Bool), ex d = true →
        ∀ a ∈ distribute th sd ed ex, a.date ≠ d) ∧
    (∀ (ex ex' : Int → Bool) (sd : Int) (n off : Nat) (r : ℚ),
        (primaryLoop ex sd n off r).2 = (primaryLoop ex' sd n off r).2) ∧
    (∀ D : Int, distribute 8 D D (fun _ => true) = [] ∧
        (primaryLoop (fun _ => true) D ((D - D + 1).toNat) 0 8).2 = 0) := by
  refine ⟨?_, ?_, ?_⟩
  · intro th sd ed d ex hexd a ha had
    simp only [distribute, List.mem_append] at ha
    rcases ha with ha | ha
    · have := (primaryLoop_mem ex sd _ 0 th a ha).1
      rw [had, hexd] at this
      exact absurd this (by simp)
    · have := (spillLoop_mem ex _ ed a ha).1
      rw [had, hexd] at this
      exact absurd this (by simp)
  · intro ex ex' sd n off r
    exact primaryLoop_snd_indep ex ex' sd n off r
  · intro D
    have htd : ((D : Int) - D + 1).toNat = 1 := by omega
    constructor
    · norm_num [distribute, htd, primaryLoop, daily_cap, spillLoop_nonpos]
    · norm_num [htd, primaryLoop, daily_cap]

/-- Witness for C2: with the check true exactly at date `5`, the single
allocation emitted over the range `[0, 0]` avoids date `5`; and the
concrete instance `distribute(8, [0, 0], exists ≡ true)` of the third
conjunct. -/
theorem C2_duplicates_consume_share_witness :
    ((fun x : Int => decide (x = 5)) 5 = true ∧
      (⟨0, 8⟩ : Allocation).date ≠ 5) ∧
    distribute 8 0 0 (fun _ => true) = [] := by
  refine ⟨⟨by decide, ?_⟩, (C2_duplicates_consume_share.2.2 0).1⟩
  exact C2_duplicates_consume_share.1 8 0 0 5 (fun x => decide (x = 5))
    (by decide) ⟨0, 8⟩
    (by norm_num [distribute, primaryLoop, daily_cap, spillLoop_nonpos])

/-- C3: every emitted allocation has hours strictly greater than `0` and at
most `daily_cap = 8`, for every `total_hours`, every date range, and every
existence check. -/
theorem C3_hours_bounded (th : ℚ) (sd ed : Int) (ex : Int → Bool) :
    ∀ a ∈ distribute th sd ed ex, 0 < a.hours ∧ a.hours ≤ daily_cap := by
  intro a ha
  simp only [distribute, List.mem_append] at ha
  rcases ha with ha | ha
  · exact (primaryLoop_mem ex sd _ 0 th a ha).2.2
  · exact (spillLoop_mem ex _ ed a ha).2.2

/-- Witness for C3: the allocation `{date 0, hours 4}` emitted by
`distribute(4, [0, 0], exists ≡ false)`. -/
theorem C3_hours_bounded_witness :
    0 < (⟨0, 4⟩ : Allocation).hours ∧ (⟨0, 4⟩ : Allocation).hours ≤ daily_cap :=
  C3_hours_bounded 4 0 0 (fun _ => false) ⟨0, 4⟩
    (by norm_num [distribute, primaryLoop, daily_cap, spillLoop_nonpos])

/-- C4: `distribute(20, [D, D+1], exists ≡ false)` emits exactly
`[{D, 8}, {D+1, 8}, {D+2, 4}]` — the overflow spills exactly one day past
the range end. -/
theorem C4_spillover_example (D : Int) :
    distribute 20 D (D + 1) (fun _ => false) =
      [⟨D, 8⟩, ⟨D + 1, 8⟩, ⟨D + 2, 4⟩] := by
  have htd : ((D : Int) + 1 - D + 1).toNat = 2 := by omega
  norm_num [distribute, htd, primaryLoop, daily_cap, spillLoop_pos,
    spillLoop_nonpos]
  ring

/-- C5: emitted dates are non-decreasing; primary-range allocations stay in
`[start_date, end_date]`; spillover allocations all land strictly after
`end_date`, and (with no pre-existing dates) on consecutive days starting
exactly at `end_date + 1`. -/
theorem C5_date_ordering :
    (∀ (th : ℚ) (sd ed : Int) (ex : Int → Bool),
       ((distribute th sd ed ex).map (fun a => a.date)).Sorted (· ≤ ·)) ∧
    (∀ (th : ℚ) (sd ed : Int) (ex : Int → Bool),
       ∀ a ∈ (primaryLoop ex sd ((ed - sd + 1).toNat) 0 th).1,
         sd ≤ a.date ∧ a.date ≤ ed) ∧
    (∀ (r : ℚ) (d : Int) (ex : Int → Bool),
       ∀ a ∈ spillLoop ex r d, d + 1 ≤ a.date) ∧
    (∀ (r : ℚ) (d : Int),
       ∃ k : Nat, (spillLoop (fun _ => false) r d).map (fun a => a.date) =
         (List.range k).map (fun i : Nat => d + 1 + (i : Int))) := by
  refine ⟨?_, ?_, ?_, spillLoop_dates_false⟩
  · intro th sd ed ex
    have hsorted : ((distribute th sd ed ex).map (fun a => a.date)).Sorted (· < ·) := by
      simp only [distribute, List.map_append]
      rw [List.Sorted, List.pairwise_append]
      refine ⟨primaryLoop_sorted ex sd _ 0 th, spillLoop_sorted ex _ ed, ?_⟩
      intro x hx y hy
      simp only [List.mem_map] at hx hy
      obtain ⟨a, ha, rfl⟩ := hx
      obtain ⟨b, hb, rfl⟩ := hy
      have h1 := (primaryLoop_mem ex sd _ 0 th a ha).2.1
      have h2 := (spillLoop_mem ex _ ed b hb).2.1
      push_cast at h1
      omega
    exact List.Pairwise.imp (fun h => le_of_lt h) hsorted
  · intro th sd ed ex a ha
    have h := (primaryLoop_mem ex sd _ 0 th a ha).2.1
    push_cast at h
    omega
  · intro r d ex a ha
    have := (spillLoop_mem ex r d a ha).2.1
    omega

/-- Witness for C5 at `distribute(20, [0, 1], exists ≡ false)` and its
spillover allocation `{date 2, hours 4}`. -/
theorem C5_date_ordering_witness :
    ((distribute 20 0 1 (fun _ => false)).map (fun a => a.date)).Sorted (· ≤ ·) ∧
    (0 ≤ (⟨0, 8⟩ : Allocation).date ∧ (⟨0, 8⟩ : Allocation).date ≤ 1) ∧
    (1 : Int) + 1 ≤ (⟨2, 4⟩ : Allocation).date := by
  refine ⟨C5_date_ordering.1 20 0 1 (fun _ => false), ?_, ?_⟩
  · refine C5_date_ordering.2.1 20 0 1 (fun _ => false) ⟨0, 8⟩ ?_
    norm_num [primaryLoop, daily_cap]
  · refine C5_date_ordering.2.2.1 4 1 (fun _ => false) ⟨2, 4⟩ ?_
    norm_num [spillLoop_pos, spillLoop_nonpos, daily_cap]

/-- C10: the spillover loop terminates: it runs exactly
`⌈remaining / daily_cap⌉` iterations (so finitely many for every finite
`remaining`), emits at most that many allocations, and each iteration
decrements the remaining hours by the positive amount
`min(remaining, daily_cap)`. -/
theorem C10_spill_terminates (r : ℚ) (d : Int) (ex : Int → Bool) :
    spillSteps r = (Int.ceil (r / daily_cap)).toNat ∧
    (spillLoop ex r d).length ≤ spillSteps r ∧
    (0 < r → 0 < min r daily_cap ∧
      spillSteps r = spillSteps (r - min r daily_cap) + 1) := by
  refine ⟨spillSteps_eq r, spillLoop_length ex r d, ?_⟩
  intro hr
  refine ⟨?_, spillSteps_pos r hr⟩
  have : (0 : ℚ) < daily_cap := by norm_num [daily_cap]
  exact lt_min hr this

/-- Witness for C10 at `remaining = 20`. -/
theorem C10_spill_terminates_witness :
    0 < (20 : ℚ) ∧ 0 < min (20 : ℚ) daily_cap ∧
      spillSteps 20 = spillSteps (20 - min (20 : ℚ) daily_cap) + 1 :=
  ⟨by norm_num,
    (C10_spill_terminates 20 0 (fun _ => false)).2.2 (by norm_num)⟩

/-! ### Claims about the full method -/

/-- C6: a malformed date string, or a start date after the end date, makes
the method return a structured error dict and leave the store untouched
(no slot lookup, no record creation). -/
theorem C6_invalid_dates_error (st : Store) (pid : Nat) (ss es : String)
    (sid : Option Nat) (sh : Option ℚ) :
    ((parseDate ss = none ∨ parseDate es = none) →
      create_timesheet_from_effective_hours st pid ss es sid sh =
        (OpResult.error "Invalid date format. Use YYYY-MM-DD.", st)) ∧
    (∀ sd ed : Date, parseDate ss = some sd → parseDate es = some ed →
      dateLt ed sd = true →
      create_timesheet_from_effective_hours st pid ss es sid sh =
        (OpResult.error "Start date cannot be after end date.", st)) := by
  constructor
  · intro h
    rcases h with h | h
    · cases hes : parseDate es <;>
        simp [create_timesheet_from_effective_hours, h, hes]
    · cases hss : parseDate ss <;>
        simp [create_timesheet_from_effective_hours, h, hss]
  · intro sd ed hss hes hlt
    simp [create_timesheet_from_effective_hours, hss, hes, hlt]

/-- Witness for C6: the unparsable date `"2025-13-40"` and the reversed
range `2025-05-19 .. 2025-05-16` on an empty store. -/
theorem C6_invalid_dates_error_witness :
    parseDate "2025-13-40" = none ∧
    create_timesheet_from_effective_hours ⟨[], [], 1⟩ 4 "2025-13-40"
        "2025-05-19" none none =
      (OpResult.error "Invalid date format. Use YYYY-MM-DD.", ⟨[], [], 1⟩) ∧
    create_timesheet_from_effective_hours ⟨[], [], 1⟩ 4 "2025-05-19"
        "2025-05-16" none none =
      (OpResult.error "Start date cannot be after end date.", ⟨[], [], 1⟩) :=
  ⟨by decide,
    (C6_invalid_dates_error ⟨[], [], 1⟩ 4 "2025-13-40" "2025-05-19" none none).1
      (Or.inl (by decide)),
    (C6_invalid_dates_error ⟨[], [], 1⟩ 4 "2025-05-19" "2025-05-16" none none).2
      ⟨2025, 5, 19⟩ ⟨2025, 5, 16⟩ (by decide) (by decide) (by decide)⟩

/-- C7: with valid dates but no slot matching the search domain, the method
returns a structured error dict with an explanatory message and creates no
timesheets (the store is unchanged). -/
theorem C7_no_slots_error (st : Store) (pid : Nat) (ss es : String)
    (sid : Option Nat) (sh : Option ℚ) (sd ed : Date)
    (h1 : parseDate ss = some sd) (h2 : parseDate es = some ed)
    (h3 : dateLt ed sd = false)
    (h4 : st.slots.filter (slotMatches pid sid) = []) :
    create_timesheet_from_effective_hours st pid ss es sid sh =
      (OpResult.error
        "No planning slots found with effective or allocated hours for this customer.",
        st) := by
  simp [create_timesheet_from_effective_hours, h1, h2, h3, h4]

/-- Witness for C7: an empty store with the valid range
`2025-05-16 .. 2025-05-19`. -/
theorem C7_no_slots_error_witness :
    create_timesheet_from_effective_hours ⟨[], [], 1⟩ 4 "2025-05-16"
        "2025-05-19" none none =
      (OpResult.error
        "No planning slots found with effective or allocated hours for this customer.",
        ⟨[], [], 1⟩) :=
  C7_no_slots_error ⟨[], [], 1⟩ 4 "2025-05-16" "2025-05-19" none none
    ⟨2025, 5, 16⟩ ⟨2025, 5, 19⟩ (by decide) (by decide) (by decide) (by decide)

/-- C8: with valid inputs and at least one matching slot, the method
returns a success dict carrying the list of created timesheet ids (which
may be empty). -/
theorem C8_success_with_ids (st : Store) (pid : Nat) (ss es : String)
    (sid : Option Nat) (sh : Option ℚ) (sd ed : Date)
    (h1 : parseDate ss = some sd) (h2 : parseDate es = some ed)
    (h3 : dateLt ed sd = false)
    (h4 : st.slots.filter (slotMatches pid sid) ≠ []) :
    ∃ (ids : List Nat) (st' : Store),
      create_timesheet_from_effective_hours st pid ss es sid sh =
        (OpResult.success
          ("Created " ++ toString ids.length ++ " timesheet entries.") ids,
          st') := by
  refine ⟨(runSlots (toOrd sd) (toOrd ed) st
      (st.slots.filter (slotMatches pid sid))).2,
    (runSlots (toOrd sd) (toOrd ed) st
      (st.slots.filter (slotMatches pid sid))).1, ?_⟩
  simp [create_timesheet_from_effective_hours, h1, h2, h3,
    List.isEmpty_iff, h4]

/-- Witness for C8: a store with one eligible slot whose single candidate
date already has a timesheet, so the call succeeds with an empty id list. -/
theorem C8_success_with_ids_witness :
    (∃ (ids : List Nat) (st' : Store),
      create_timesheet_from_effective_hours
          ⟨[⟨7, "A", 2, 3, 4, true, 8, 0⟩],
            [⟨99, 2, 3, 4, toOrd ⟨2025, 5, 16⟩, 8, 7⟩], 100⟩ 4
          "2025-05-16" "2025-05-16" none none =
        (OpResult.success
          ("Created " ++ toString ids.length ++ " timesheet entries.") ids,
          st')) ∧
    (create_timesheet_from_effective_hours
        ⟨[⟨7, "A", 2, 3, 4, true, 8, 0⟩],
          [⟨99, 2, 3, 4, toOrd ⟨2025, 5, 16⟩, 8, 7⟩], 100⟩ 4
        "2025-05-16" "2025-05-16" none none).1 =
      OpResult.success "Created 0 timesheet entries." [] := by
  constructor
  · exact C8_success_with_ids _ 4 "2025-05-16" "2025-05-16" none none
      ⟨2025, 5, 16⟩ ⟨2025, 5, 16⟩ (by decide) (by decide) (by decide) (by decide)
  · have hp : parseDate "2025-05-16" = some ⟨2025, 5, 16⟩ := by decide
    have hflt : (⟨[⟨7, "A", 2, 3, 4, true, 8, 0⟩],
        [⟨99, 2, 3, 4, toOrd ⟨2025, 5, 16⟩, 8, 7⟩], 100⟩ : Store).slots.filter
        (slotMatches 4 none) = [⟨7, "A", 2, 3, 4, true, 8, 0⟩] := by decide
    norm_num [create_timesheet_from_effective_hours, hp, hflt, runSlots,
      processSlot, slotTotalHours, distribute, primaryLoop, daily_cap,
      spillLoop_nonpos, createTimesheets, existsLine, toOrd, dateLt]
    rfl

/-- C9: the result of the method (and of its action wrapper) is entirely
independent of the `specific_hours` argument. -/
theorem C9_specific_hours_ignored (st : Store) (pid : Nat) (ss es : String)
    (sid : Option Nat) (sh1 sh2 : Option ℚ) :
    create_timesheet_from_effective_hours st pid ss es sid sh1 =
      create_timesheet_from_effective_hours st pid ss es sid sh2 ∧
    action_generate_timesheets st pid ss es sid sh1 =
      action_generate_timesheets st pid ss es sid sh2 :=
  ⟨rfl, rfl⟩

end Lemon
